import Mathlib

/-!
Verification of the ranking and result-shaping pipeline of the
video-frame retrieval system: the hybrid scorer, the sequential path
builder, the diversity filter, the sequential-query cache key, and the
frontend temporal-query state machine.

The backend module (`backend/main.py`) is not part of the source tree;
its behavior is documented in `docs/SYSTEM_EVALUATION_REPORT.md`,
`docs/FEATURE_PLAN.md`, `docs/QUICK_ACTION_PLAN.md` and the design
specification.  The definitions below are therefore modelled from the
specification and the code excerpts quoted in those documents, as noted
in each doc comment.
-/

namespace RetrievalSpec

/-! ### Diversity filter (spec section 4.4) -/

/-- Modelled from the spec: a ranked item entering the diversity filter,
a frame record together with its score (`docs/SYSTEM_EVALUATION_REPORT.md`
`test_diversity_filter`; the implementing code `_enforce_diversity` in
`backend/main.py` is not in the source tree). -/
structure RItem where
  video_id : String
  frame_ordinal : Nat
  score : ℚ
deriving DecidableEq

/-- Distance between two frame ordinals. -/
def natDist (a b : Nat) : Nat := max a b - min a b

/-- Ordinals already kept for a given video. -/
def keptOrdinalsFor (kept : List RItem) (v : String) : List Nat :=
  (kept.filter (fun r => r.video_id = v)).map (fun r => r.frame_ordinal)

/-- Modelled from the spec: admission test of the diversity filter.  A
candidate is kept only if its video has fewer than `cap` kept entries and
every kept ordinal of that video is at least `gap` away. -/
def divOK (gap cap : Nat) (kept : List RItem) (c : RItem) : Bool :=
  let ords := keptOrdinalsFor kept c.video_id
  decide (ords.length < cap) && ords.all (fun o => decide (gap ≤ natDist c.frame_ordinal o))

/-- Modelled from the spec: the greedy loop of the diversity filter.
Iterate the input in score order, keep a candidate iff `divOK`, stop once
`maxr` entries are kept. -/
def divGo (gap cap maxr : Nat) (kept : List RItem) : List RItem → List RItem
  | [] => kept
  | c :: rest =>
    if maxr ≤ kept.length then kept
    else if divOK gap cap kept c then divGo gap cap maxr (kept ++ [c]) rest
    else divGo gap cap maxr kept rest

/-- Modelled from the spec: `filter_diversity(ranked_items, min_gap_frames,
max_per_video, max_results)` (spec section 4.4; `backend/main.py` is not in
the source tree). -/
def filter_diversity (l : List RItem) (gap cap maxr : Nat) : List RItem :=
  divGo gap cap maxr [] l

/-- Number of kept entries contributed by video `v`. -/
def perVideoCount (l : List RItem) (v : String) : Nat :=
  (l.filter (fun r => r.video_id = v)).length

/-- Spacing compatibility of two kept items: if they come from the same
video their ordinals differ by at least `gap`. -/
def gapCompat (gap : Nat) (a b : RItem) : Prop :=
  a.video_id = b.video_id → gap ≤ natDist a.frame_ordinal b.frame_ordinal

theorem natDist_comm (a b : Nat) : natDist a b = natDist b a := by
  simp [natDist, Nat.max_comm, Nat.min_comm]

theorem keptOrdinalsFor_length (kept : List RItem) (v : String) :
    (keptOrdinalsFor kept v).length = perVideoCount kept v := by
  simp [keptOrdinalsFor, perVideoCount]

/-- What `divOK` guarantees about the newly admitted candidate. -/
theorem divOK_spec {gap cap : Nat} {kept : List RItem} {c : RItem}
    (h : divOK gap cap kept c = true) :
    perVideoCount kept c.video_id < cap ∧ ∀ a ∈ kept, gapCompat gap a c := by
  simp only [divOK, Bool.and_eq_true, decide_eq_true_eq, List.all_eq_true] at h
  obtain ⟨h1, h2⟩ := h
  refine ⟨by simpa [keptOrdinalsFor_length] using h1, ?_⟩
  intro a ha hv
  have : a.frame_ordinal ∈ keptOrdinalsFor kept c.video_id := by
    simp only [keptOrdinalsFor, List.mem_map, List.mem_filter]
    exact ⟨a, ⟨ha, by simp [hv]⟩, rfl⟩
  have := h2 _ this
  simpa [natDist_comm] using this

/-- The three invariants of a (partially built) diversity output. -/
def divInv (gap cap maxr : Nat) (l : List RItem) : Prop :=
  (∀ v, perVideoCount l v ≤ cap) ∧ List.Pairwise (gapCompat gap) l ∧ l.length ≤ maxr

theorem perVideoCount_append (l₁ l₂ : List RItem) (v : String) :
    perVideoCount (l₁ ++ l₂) v = perVideoCount l₁ v + perVideoCount l₂ v := by
  simp [perVideoCount]

theorem divInv_snoc {gap cap maxr : Nat} {kept : List RItem} {c : RItem}
    (hinv : divInv gap cap maxr kept) (hlen : kept.length < maxr)
    (hok : divOK gap cap kept c = true) :
    divInv gap cap maxr (kept ++ [c]) := by
  obtain ⟨hcnt, hpw, _⟩ := hinv
  obtain ⟨hcap, hgap⟩ := divOK_spec hok
  refine ⟨?_, ?_, by simpa using hlen⟩
  · intro v
    rw [perVideoCount_append]
    by_cases hv : c.video_id = v
    · subst hv
      have : perVideoCount [c] c.video_id ≤ 1 := by simp [perVideoCount]
      omega
    · have h0 : perVideoCount [c] v = 0 := by
        simp [perVideoCount, List.filter_eq_nil_iff]
        intro h
        exact absurd h hv
      have h1 := hcnt v
      omega
  · rw [List.pairwise_append]
    refine ⟨hpw, List.pairwise_singleton _ _, ?_⟩
    intro a ha b hb
    simp only [List.mem_singleton] at hb
    subst hb
    exact hgap a ha

/-- The loop of `filter_diversity` preserves the invariants and adds at
most the remaining input length. -/
theorem divGo_inv (gap cap maxr : Nat) :
    ∀ (rest kept : List RItem), divInv gap cap maxr kept →
      divInv gap cap maxr (divGo gap cap maxr kept rest) ∧
      (divGo gap cap maxr kept rest).length ≤ kept.length + rest.length := by
  intro rest
  induction rest with
  | nil =>
    intro kept hinv
    exact ⟨hinv, by simp [divGo]⟩
  | cons c rest ih =>
    intro kept hinv
    by_cases hstop : maxr ≤ kept.length
    · simp only [divGo, if_pos hstop]
      exact ⟨hinv, by omega⟩
    · have hlt : kept.length < maxr := by omega
      by_cases hok : divOK gap cap kept c = true
      · simp only [divGo, if_neg hstop, if_pos hok]
        have h := ih (kept ++ [c]) (divInv_snoc hinv hlt hok)
        refine ⟨h.1, ?_⟩
        have h2 := h.2
        simp only [List.length_append, List.length_cons, List.length_nil] at h2 ⊢
        omega
      · simp only [divGo, if_neg hstop, Bool.not_eq_true] at hok ⊢
        rw [if_neg (by simp [hok])]
        have h := ih kept hinv
        refine ⟨h.1, ?_⟩
        have h2 := h.2
        simp only [List.length_cons] at h2 ⊢
        omega

theorem divInv_nil (gap cap maxr : Nat) : divInv gap cap maxr [] := by
  refine ⟨fun v => by simp [perVideoCount], List.Pairwise.nil, by simp⟩

theorem filter_diversity_inv (l : List RItem) (gap cap maxr : Nat) :
    divInv gap cap maxr (filter_diversity l gap cap maxr) ∧
    (filter_diversity l gap cap maxr).length ≤ l.length := by
  have h := divGo_inv gap cap maxr l [] (divInv_nil gap cap maxr)
  exact ⟨h.1, by simpa [filter_diversity] using h.2⟩

/-- C1: for every input list and every configuration, the output of
`filter_diversity` keeps at most `max_per_video` entries per video, any
two kept entries from the same video are at least `min_gap_frames` apart,
and the output length is at most `max_results` and at most the input
length. -/
theorem filter_diversity_invariants (l : List RItem) (gap cap maxr : Nat) :
    (∀ v, perVideoCount (filter_diversity l gap cap maxr) v ≤ cap) ∧
    List.Pairwise (gapCompat gap) (filter_diversity l gap cap maxr) ∧
    (filter_diversity l gap cap maxr).length ≤ maxr ∧
    (filter_diversity l gap cap maxr).length ≤ l.length := by
  obtain ⟨⟨hc, hp, hm⟩, hl⟩ := filter_diversity_inv l gap cap maxr
  exact ⟨hc, hp, hm, hl⟩

/-- On an input that already satisfies the three invariants, the loop
keeps everything. -/
theorem divGo_fixed (gap cap maxr : Nat) :
    ∀ (rest kept : List RItem),
      (∀ v, perVideoCount (kept ++ rest) v ≤ cap) →
      List.Pairwise (gapCompat gap) (kept ++ rest) →
      (kept ++ rest).length ≤ maxr →
      divGo gap cap maxr kept rest = kept ++ rest := by
  intro rest
  induction rest with
  | nil => intro kept _ _ _; simp [divGo]
  | cons c rest ih =>
    intro kept hcnt hpw hlen
    have hstop : ¬ maxr ≤ kept.length := by
      simp only [List.length_append, List.length_cons] at hlen
      omega
    have hok : divOK gap cap kept c = true := by
      simp only [divOK, Bool.and_eq_true, decide_eq_true_eq, List.all_eq_true]
      constructor
      · rw [keptOrdinalsFor_length]
        have h1 := hcnt c.video_id
        have h2 : perVideoCount (kept ++ c :: rest) c.video_id =
            perVideoCount kept c.video_id + perVideoCount (c :: rest) c.video_id := by
          simpa using perVideoCount_append kept (c :: rest) c.video_id
        have h3 : 0 < perVideoCount (c :: rest) c.video_id := by
          have hm : c ∈ (c :: rest).filter (fun r => r.video_id = c.video_id) :=
            List.mem_filter.mpr ⟨List.mem_cons_self c rest, by simp⟩
          exact List.length_pos.mpr (List.ne_nil_of_mem hm)
        omega
      · intro o ho
        simp only [keptOrdinalsFor, List.mem_map, List.mem_filter,
          decide_eq_true_eq] at ho
        obtain ⟨a, ⟨ha, hv⟩, rfl⟩ := ho
        rw [List.pairwise_append] at hpw
        have := hpw.2.2 a ha c (by simp)
        have hg := this hv
        simp [natDist_comm] at hg ⊢
        exact hg
    simp only [divGo, if_neg hstop, if_pos hok]
    have : kept ++ [c] ++ rest = kept ++ c :: rest := by simp
    rw [ih (kept ++ [c]) (by rw [this]; exact hcnt) (by rw [this]; exact hpw)
      (by rw [this]; exact hlen), this]

/-- C6: `filter_diversity` is idempotent: applying it to its own output
with the same parameters returns that output unchanged. -/
theorem filter_diversity_idempotent (l : List RItem) (gap cap maxr : Nat) :
    filter_diversity (filter_diversity l gap cap maxr) gap cap maxr =
      filter_diversity l gap cap maxr := by
  obtain ⟨⟨hc, hp, hm⟩, _⟩ := filter_diversity_inv l gap cap maxr
  have := divGo_fixed gap cap maxr (filter_diversity l gap cap maxr) []
    (by simpa using hc) (by simpa using hp) (by simpa using hm)
  simpa [filter_diversity] using this

/-- C7: on three candidates from video V1 at ordinals 10, 50, 200 with
descending scores, gap 100, cap 3, max results 10, the filter keeps
exactly the candidates at ordinals 10 and 200, in that order. -/
theorem filter_diversity_scenarioA :
    filter_diversity
      [⟨"V1", 10, 9/10⟩, ⟨"V1", 50, 8/10⟩, ⟨"V1", 200, 7/10⟩] 100 3 10 =
      [⟨"V1", 10, 9/10⟩, ⟨"V1", 200, 7/10⟩] := by
  rfl

/-! ### Hybrid scorer (spec section 4.2) -/

/-- Modelled from the spec: a candidate's query-time scores entering the
hybrid scorer (`backend/main.py` is not in the source tree). -/
structure Candidate where
  similarity : ℚ
  ocr_score : ℚ
  tag_score : ℚ
deriving DecidableEq

/-- Modelled from the spec: one named weight preset of the adaptive
weighting policy. -/
structure SignalWeights where
  similarity : ℚ
  ocr : ℚ
  tag : ℚ
deriving DecidableEq

/-- Modelled from the spec: `score_hybrid(candidate, weights)`, the
weighted sum of the three signals. -/
def score_hybrid (c : Candidate) (w : SignalWeights) : ℚ :=
  w.similarity * c.similarity + w.ocr * c.ocr_score + w.tag * c.tag_score

/-- Modelled from the spec: the adaptive preset table keyed on corpus
capability flags.  Both signals: 0.4, 0.4, 0.2; tags only: 0.6, 0, 0.4;
neither: similarity alone.  The OCR-only combination is not documented;
it is mirrored from the tags-only preset and no claim depends on it. -/
def weight_preset (has_ocr has_tags : Bool) : SignalWeights :=
  match has_ocr, has_tags with
  | true, true => ⟨0.4, 0.4, 0.2⟩
  | false, true => ⟨0.6, 0, 0.4⟩
  | true, false => ⟨0.6, 0.4, 0⟩
  | false, false => ⟨1, 0, 0⟩

/-- C2: the fused score is the preset-weighted sum: with both signals the
weights are 0.4/0.4/0.2 (so similarity 0.8, ocr 1.0, tag 0.0 fuses to
exactly 0.72), with tags only they are 0.6/0.4, and with no auxiliary
signal the fused score is exactly the similarity. -/
theorem score_hybrid_adaptive_presets :
    weight_preset true true = ⟨0.4, 0.4, 0.2⟩ ∧
    score_hybrid ⟨0.8, 1, 0⟩ (weight_preset true true) = 0.72 ∧
    weight_preset false true = ⟨0.6, 0, 0.4⟩ ∧
    ∀ c : Candidate, score_hybrid c (weight_preset false false) = c.similarity := by
  refine ⟨rfl, by norm_num [score_hybrid, weight_preset], rfl, ?_⟩
  intro c
  simp [score_hybrid, weight_preset]

/-! ### OCR text-match score (spec section 4.2, doc excerpts
`extract_keywords` and `calculate_text_match_score` in
`docs/SYSTEM_EVALUATION_REPORT.md`) -/

/-- Lower-case a text given as a character list. -/
def lowerCL (s : List Char) : List Char := s.map Char.toLower

/-- Helper of `splitWs`: split on whitespace, dropping empty tokens; the
second argument is the reversed current token. -/
def splitWsGo : List Char → List Char → List (List Char)
  | [], cur => if cur = [] then [] else [cur.reverse]
  | c :: cs, cur =>
    if c.isWhitespace then
      if cur = [] then splitWsGo cs [] else cur.reverse :: splitWsGo cs []
    else splitWsGo cs (c :: cur)

/-- Whitespace tokenization, as Python's `str.split()`: empty tokens are
dropped. -/
def splitWs (s : List Char) : List (List Char) := splitWsGo s []

/-- Modelled from the doc excerpt: `extract_keywords` lower-cases and
tokenizes the query, then drops single-character tokens and stopwords
(the stopword list is configuration, taken as a parameter). -/
def extract_keywords (stop : List (List Char)) (text : String) : List (List Char) :=
  (splitWs (lowerCL text.data)).filter
    (fun w => decide (1 < w.length) && !(stop.contains w))

/-- Does `kw` start the text `s`? -/
def startsCL : List Char → List Char → Bool
  | [], _ => true
  | _ :: _, [] => false
  | a :: as, b :: bs => a == b && startsCL as bs

/-- Contiguous-substring test on character lists, Python's `kw in s`. -/
def containsCL (kw : List Char) : List Char → Bool
  | [] => kw.isEmpty
  | c :: rest => startsCL kw (c :: rest) || containsCL kw rest

/-- Modelled from the doc excerpt: per-keyword credit of
`calculate_text_match_score` — 1 for an exact substring match in the
lower-cased OCR text, 0.7 for a fuzzy match above the threshold
(abstracted as the predicate `fz`, standing for `fuzz.ratio > 80` against
each OCR word), 0 otherwise. -/
def keywordCredit (fz : List Char → List Char → Bool) (ocrLower : List Char)
    (kw : List Char) : ℚ :=
  if containsCL kw ocrLower then 1
  else if (splitWs ocrLower).any (fun w => fz kw w) then 7/10
  else 0

/-- Modelled from the doc excerpt: `calculate_text_match_score(ocr_text,
keywords)` — 0 when no keywords or empty OCR text, otherwise the sum of
per-keyword credits divided by the keyword count. -/
def calculate_text_match_score (fz : List Char → List Char → Bool)
    (ocr_text : String) (keywords : List (List Char)) : ℚ :=
  if keywords = [] ∨ ocr_text = "" then 0
  else ((keywords.map (keywordCredit fz (lowerCL ocr_text.data))).sum) / keywords.length

/-- Modelled from the spec: the `ocr_score` of a frame for a query is
`calculate_text_match_score` applied to the frame's OCR text and the
query's extracted keywords. -/
def ocr_score (stop : List (List Char)) (fz : List Char → List Char → Bool)
    (query ocr_text : String) : ℚ :=
  calculate_text_match_score fz ocr_text (extract_keywords stop query)

/-- Clamp a rational to the unit interval. -/
def clamp01 (x : ℚ) : ℚ := max 0 (min 1 x)

theorem keywordCredit_nonneg (fz : List Char → List Char → Bool)
    (ocrLower kw : List Char) : 0 ≤ keywordCredit fz ocrLower kw := by
  unfold keywordCredit
  split
  · norm_num
  · split <;> norm_num

theorem keywordCredit_le_one (fz : List Char → List Char → Bool)
    (ocrLower kw : List Char) : keywordCredit fz ocrLower kw ≤ 1 := by
  unfold keywordCredit
  split
  · norm_num
  · split <;> norm_num

theorem credit_sum_bounds (fz : List Char → List Char → Bool)
    (ocrLower : List Char) (kws : List (List Char)) :
    0 ≤ (kws.map (keywordCredit fz ocrLower)).sum ∧
      (kws.map (keywordCredit fz ocrLower)).sum ≤ (kws.length : ℚ) := by
  constructor
  · refine List.sum_nonneg ?_
    intro x hx
    obtain ⟨kw, _, rfl⟩ := List.mem_map.mp hx
    exact keywordCredit_nonneg fz ocrLower kw
  · have h := List.sum_le_card_nsmul (kws.map (keywordCredit fz ocrLower)) 1 ?_
    · simpa using h
    · intro x hx
      obtain ⟨kw, _, rfl⟩ := List.mem_map.mp hx
      exact keywordCredit_le_one fz ocrLower kw

/-- C4: `ocr_score` is the per-keyword credit sum divided by the keyword
count — credits being 1 for an exact substring match and 0.7 for a fuzzy
match — the clamp to the unit interval is satisfied (it changes nothing),
and the score is 0 whenever the OCR text is empty or no keywords are
extracted. -/
theorem ocr_score_spec (stop : List (List Char)) (fz : List Char → List Char → Bool)
    (query ocr_text : String) :
    ocr_score stop fz query ocr_text =
      (if extract_keywords stop query = [] ∨ ocr_text = "" then 0
       else clamp01
         (((extract_keywords stop query).map
             (keywordCredit fz (lowerCL ocr_text.data))).sum /
           ((extract_keywords stop query).length : ℚ))) ∧
    0 ≤ ocr_score stop fz query ocr_text ∧
    ocr_score stop fz query ocr_text ≤ 1 := by
  set kws := extract_keywords stop query with hkws
  by_cases hc : kws = [] ∨ ocr_text = ""
  · have h0 : ocr_score stop fz query ocr_text = 0 := by
      simp [ocr_score, calculate_text_match_score, ← hkws, hc]
    rw [h0]
    simp [hc]
  · have hlen : 0 < (kws.length : ℚ) := by
      push_neg at hc
      have : kws ≠ [] := hc.1
      have : 0 < kws.length := List.length_pos.mpr this
      exact_mod_cast this
    obtain ⟨hnn, hle⟩ := credit_sum_bounds fz (lowerCL ocr_text.data) kws
    have hq0 : 0 ≤ (kws.map (keywordCredit fz (lowerCL ocr_text.data))).sum /
        (kws.length : ℚ) := div_nonneg hnn hlen.le
    have hq1 : (kws.map (keywordCredit fz (lowerCL ocr_text.data))).sum /
        (kws.length : ℚ) ≤ 1 := (div_le_one hlen).mpr hle
    have hval : ocr_score stop fz query ocr_text =
        (kws.map (keywordCredit fz (lowerCL ocr_text.data))).sum /
          (kws.length : ℚ) := by
      simp [ocr_score, calculate_text_match_score, ← hkws, hc]
    refine ⟨?_, ?_, ?_⟩
    · rw [hval, if_neg hc, clamp01, min_eq_right hq1, max_eq_right hq0]
    · rw [hval]; exact hq0
    · rw [hval]; exact hq1

/-! ### Sequential path builder (spec section 4.3) -/

/-- Modelled from the spec: a scored candidate in one step's pool
(`_build_sequential_paths` in `backend/main.py` is not in the source
tree). -/
structure SeqCand where
  video_id : String
  frame_ordinal : Nat
  timestamp : ℚ
  fused_score : ℚ
deriving DecidableEq

/-- Modelled from the spec: an optional min/max time-gap constraint from
the previous matched step. -/
structure GapConstraint where
  lo : ℚ
  hi : ℚ
deriving DecidableEq

/-- Modelled from the spec: one video's realization of the steps — the
matched `(step_index, candidate)` pairs in step order, plus the total
step count. -/
structure Path where
  video_id : String
  matched : List (Nat × SeqCand)
  total_steps : Nat
deriving DecidableEq

/-- Step indices actually realized by a path. -/
def matched_steps (p : Path) : List Nat := p.matched.map Prod.fst

/-- Fraction of steps matched. -/
def completeness (p : Path) : ℚ := (p.matched.length : ℚ) / (p.total_steps : ℚ)

/-- Mean fused score over matched steps. -/
def similarity_avg (p : Path) : ℚ :=
  ((p.matched.map (fun mc => mc.2.fused_score)).sum) / (p.matched.length : ℚ)

/-- Helper of `longestRun`: current previous value, current run length,
best run length so far. -/
def runGo : List Nat → Nat → Nat → Nat → Nat
  | [], _, cur, best => max best cur
  | x :: xs, prev, cur, best =>
    if x = prev + 1 then runGo xs x (cur + 1) best
    else runGo xs x 1 (max best cur)

/-- Length of the longest run of consecutive integers in a list of
increasing step indices. -/
def longestRun : List Nat → Nat
  | [] => 0
  | x :: xs => runGo xs x 1 0

/-- Modelled from the spec: coherence bonus — longest consecutive run of
matched step indices over the total step count. -/
def coherence_bonus (p : Path) : ℚ :=
  (longestRun (matched_steps p) : ℚ) / (p.total_steps : ℚ)

/-- Modelled from the spec: default path score, 0.5 completeness + 0.4
similarity + 0.1 coherence. -/
def path_score (p : Path) : ℚ :=
  1/2 * completeness p + 2/5 * similarity_avg p + 1/10 * coherence_bonus p

/-- The cursor of the per-video state machine: ordinal and timestamp of
the last matched candidate, if any. -/
abbrev Cursor := Option (Nat × ℚ)

/-- Modelled from the spec: a candidate qualifies for the current step if
its ordinal is at or after the last matched ordinal (unconstrained when
no step matched yet) and, when a time-gap constraint is defined for this
transition, its timestamp delta from the previous matched step lies in
the constraint interval. -/
def qualifies (cursor : Cursor) (gapc : Option GapConstraint) (c : SeqCand) : Bool :=
  match cursor with
  | none => true
  | some (lo, lt) =>
    decide (lo ≤ c.frame_ordinal) &&
      (match gapc with
       | none => true
       | some g =>
         decide (g.lo ≤ c.timestamp - lt) && decide (c.timestamp - lt ≤ g.hi))

/-- Ordinal distance from the cursor, tie-break key of candidate
selection. -/
def ordDelta (cursor : Cursor) (c : SeqCand) : Nat :=
  match cursor with
  | none => c.frame_ordinal
  | some (lo, _) => c.frame_ordinal - lo

/-- Modelled from the spec: `a` beats `b` when it has the higher fused
score, ties broken by the smaller ordinal delta from the cursor. -/
def betterCand (cursor : Cursor) (a b : SeqCand) : Bool :=
  decide (b.fused_score < a.fused_score) ||
    (decide (a.fused_score = b.fused_score) &&
      decide (ordDelta cursor a < ordDelta cursor b))

/-- Pick the best qualifying candidate of a pool (first listed wins full
ties), none when the pool is empty. -/
def selectBest (cursor : Cursor) : List SeqCand → Option SeqCand
  | [] => none
  | c :: cs => some (cs.foldl (fun best x => if betterCand cursor x best then x else best) c)

/-- Modelled from the spec: the per-video fold over the steps.  Each step
filters its pool to the video and to qualifying candidates; a step with
no qualifying candidate is left unmatched and the fold continues;
otherwise the best candidate is recorded and the cursor advances. -/
def pathFold (v : String) :
    List (List SeqCand × Option GapConstraint) → Nat → Cursor →
      List (Nat × SeqCand) → List (Nat × SeqCand)
  | [], _, _, acc => acc
  | (pool, gapc) :: rest, i, cursor, acc =>
    let qual := (pool.filter (fun c => c.video_id = v)).filter (qualifies cursor gapc)
    match selectBest cursor qual with
    | none => pathFold v rest (i + 1) cursor acc
    | some c =>
      pathFold v rest (i + 1) (some (c.frame_ordinal, c.timestamp)) (acc ++ [(i, c)])

/-- Modelled from the spec: build the path of one video; a video where
zero steps matched yields no path. -/
def buildPathForVideo (steps : List (List SeqCand × Option GapConstraint))
    (v : String) : Option Path :=
  match pathFold v steps 0 none [] with
  | [] => none
  | m => some ⟨v, m, steps.length⟩

/-- Modelled from the spec: configuration of the builder — minimum
completeness ratio (default 0.6) and the strict `require_all_steps`
flag. -/
structure SeqConfig where
  min_steps_ratio : ℚ
  require_all_steps : Bool
deriving DecidableEq

/-- Modelled from the spec: acceptability of a path — completeness 1.0
under `require_all_steps`, otherwise completeness at least the configured
ratio. -/
def acceptablePath (cfg : SeqConfig) (p : Path) : Bool :=
  if cfg.require_all_steps then decide (completeness p = 1)
  else decide (cfg.min_steps_ratio ≤ completeness p)

/-- Final ordering of paths: descending path score, ties by descending
completeness, then by ascending video id. -/
def pathRel (a b : Path) : Prop :=
  path_score b < path_score a ∨
    (path_score a = path_score b ∧
      (completeness b < completeness a ∨
        (completeness a = completeness b ∧ a.video_id ≤ b.video_id)))

/-- Ranking order of the degenerate single-step case: descending fused
score, ties by ascending video id. -/
def candRel (a b : SeqCand) : Prop :=
  b.fused_score < a.fused_score ∨
    (a.fused_score = b.fused_score ∧ a.video_id ≤ b.video_id)

instance decPathRel : DecidableRel pathRel := fun a b => by
  unfold pathRel
  exact inferInstance

instance decCandRel : DecidableRel candRel := fun a b => by
  unfold candRel
  exact inferInstance

instance totalPathRel : IsTotal Path pathRel where
  total a b := by
    unfold pathRel
    rcases lt_trichotomy (path_score a) (path_score b) with h | h | h
    · exact Or.inr (Or.inl h)
    · rcases lt_trichotomy (completeness a) (completeness b) with h2 | h2 | h2
      · exact Or.inr (Or.inr ⟨h.symm, Or.inl h2⟩)
      · rcases le_total a.video_id b.video_id with h3 | h3
        · exact Or.inl (Or.inr ⟨h, Or.inr ⟨h2, h3⟩⟩)
        · exact Or.inr (Or.inr ⟨h.symm, Or.inr ⟨h2.symm, h3⟩⟩)
      · exact Or.inl (Or.inr ⟨h, Or.inl h2⟩)
    · exact Or.inl (Or.inl h)

instance transPathRel : IsTrans Path pathRel where
  trans a b c hab hbc := by
    unfold pathRel at hab hbc ⊢
    rcases hab with h1 | ⟨h1, h1'⟩
    · rcases hbc with h2 | ⟨h2, _⟩
      · exact Or.inl (h2.trans h1)
      · exact Or.inl (h2 ▸ h1)
    · rcases hbc with h2 | ⟨h2, h2'⟩
      · exact Or.inl (h1 ▸ h2)
      · refine Or.inr ⟨h1.trans h2, ?_⟩
        rcases h1' with h3 | ⟨h3, h3'⟩
        · rcases h2' with h4 | ⟨h4, _⟩
          · exact Or.inl (h4.trans h3)
          · exact Or.inl (h4 ▸ h3)
        · rcases h2' with h4 | ⟨h4, h4'⟩
          · exact Or.inl (h3 ▸ h4)
          · exact Or.inr ⟨h3.trans h4, h3'.trans h4'⟩

instance totalCandRel : IsTotal SeqCand candRel where
  total a b := by
    unfold candRel
    rcases lt_trichotomy (a.fused_score) (b.fused_score) with h | h | h
    · exact Or.inr (Or.inl h)
    · rcases le_total a.video_id b.video_id with h3 | h3
      · exact Or.inl (Or.inr ⟨h, h3⟩)
      · exact Or.inr (Or.inr ⟨h.symm, h3⟩)
    · exact Or.inl (Or.inl h)

instance transCandRel : IsTrans SeqCand candRel where
  trans a b c hab hbc := by
    unfold candRel at hab hbc ⊢
    rcases hab with h1 | ⟨h1, h1'⟩
    · rcases hbc with h2 | ⟨h2, _⟩
      · exact Or.inl (h2.trans h1)
      · exact Or.inl (h2 ▸ h1)
    · rcases hbc with h2 | ⟨h2, h2'⟩
      · exact Or.inl (h1 ▸ h2)
      · exact Or.inr ⟨h1.trans h2, h1'.trans h2'⟩

/-- First-occurrence list of the video ids present in the step pools. -/
def collectVideos (pools : List (List SeqCand)) : List String :=
  (pools.flatten.map (fun c => c.video_id)).foldl
    (fun acc v => if v ∈ acc then acc else acc ++ [v]) []

/-- The path equivalent of a raw candidate in the single-step case. -/
def toSingletonPath (c : SeqCand) : Path := ⟨c.video_id, [(0, c)], 1⟩

/-- Modelled from the spec: the degenerate single-step request is plain
ranking of the step's pool by fused score, bypassing the path
machinery. -/
def rank_single_step (pool : List SeqCand) : List Path :=
  (List.insertionSort candRel pool).map toSingletonPath

/-- Modelled from the spec: `build_sequential_paths(steps, pools,
config)` — the single-step case degenerates to plain ranking; otherwise
each video's path is built greedily, unacceptable paths are dropped, and
the survivors are sorted by the final path order. -/
def build_sequential_paths (cfg : SeqConfig)
    (gaps : List (Option GapConstraint)) (pools : List (List SeqCand)) : List Path :=
  match pools with
  | [pool] => rank_single_step pool
  | _ =>
    let stepdefs := pools.zip gaps
    let paths := (collectVideos pools).filterMap (buildPathForVideo stepdefs)
    List.insertionSort pathRel (paths.filter (acceptablePath cfg))

theorem completeness_toSingleton (c : SeqCand) :
    completeness (toSingletonPath c) = 1 := by
  norm_num [completeness, toSingletonPath]

theorem coherence_toSingleton (c : SeqCand) :
    coherence_bonus (toSingletonPath c) = 1 := by
  norm_num [coherence_bonus, matched_steps, toSingletonPath, longestRun, runGo]

theorem similarity_avg_toSingleton (c : SeqCand) :
    similarity_avg (toSingletonPath c) = c.fused_score := by
  norm_num [similarity_avg, toSingletonPath]

theorem path_score_toSingleton (c : SeqCand) :
    path_score (toSingletonPath c) = 1/2 + 2/5 * c.fused_score + 1/10 := by
  rw [path_score, completeness_toSingleton, coherence_toSingleton,
    similarity_avg_toSingleton]
  ring

theorem candRel_toSingleton {a b : SeqCand} (h : candRel a b) :
    pathRel (toSingletonPath a) (toSingletonPath b) := by
  unfold candRel at h
  unfold pathRel
  rcases h with h | ⟨h, h'⟩
  · refine Or.inl ?_
    rw [path_score_toSingleton, path_score_toSingleton]
    linarith
  · refine Or.inr ⟨by rw [path_score_toSingleton, path_score_toSingleton, h], ?_⟩
    refine Or.inr ⟨by rw [completeness_toSingleton, completeness_toSingleton], ?_⟩
    simpa [toSingletonPath] using h'

/-- C3: a step candidate qualifies only at or after the last matched
ordinal; a step with no qualifying candidate is left unmatched without
aborting the path — concretely, with step 0's pool holding (V1, ordinal
100, score 0.9) and step 1's pool holding only (V1, ordinal 50, score
0.95), the resulting Path matches exactly step 0 and has completeness
one half. -/
theorem sequential_qualify_and_scenarioB :
    (∀ (lo : Nat) (lt : ℚ) (gapc : Option GapConstraint) (c : SeqCand),
        qualifies (some (lo, lt)) gapc c = true → lo ≤ c.frame_ordinal) ∧
    buildPathForVideo
        [([⟨"V1", 100, 4, 9/10⟩], none), ([⟨"V1", 50, 2, 19/20⟩], none)] "V1" =
      some ⟨"V1", [(0, ⟨"V1", 100, 4, 9/10⟩)], 2⟩ ∧
    matched_steps ⟨"V1", [(0, ⟨"V1", 100, 4, 9/10⟩)], 2⟩ = [0] ∧
    completeness ⟨"V1", [(0, ⟨"V1", 100, 4, 9/10⟩)], 2⟩ = 1/2 := by
  refine ⟨?_, rfl, rfl, by norm_num [completeness]⟩
  intro lo lt gapc c h
  simp only [qualifies, Bool.and_eq_true, decide_eq_true_eq] at h
  exact h.1

theorem sequential_qualify_witness : (100 : Nat) ≤ 150 :=
  sequential_qualify_and_scenarioB.1 100 0 none ⟨"V", 150, 0, 0⟩ (by decide)

/-- C8: a single-step request degenerates to plain ranking of the step's
pool by fused score: the builder returns exactly the ranked pool mapped
to singleton paths (a permutation of the pool, sorted by descending
fused score), and every produced path has completeness 1 and coherence
bonus 1. -/
theorem build_single_step_degenerate (cfg : SeqConfig)
    (gaps : List (Option GapConstraint)) (pool : List SeqCand) :
    build_sequential_paths cfg gaps [pool] = rank_single_step pool ∧
    (List.insertionSort candRel pool).Perm pool ∧
    List.Sorted (fun a b : SeqCand => b.fused_score ≤ a.fused_score)
      (List.insertionSort candRel pool) ∧
    ∀ p ∈ build_sequential_paths cfg gaps [pool],
      completeness p = 1 ∧ coherence_bonus p = 1 := by
  refine ⟨rfl, List.perm_insertionSort candRel pool, ?_, ?_⟩
  · refine (List.sorted_insertionSort candRel pool).imp ?_
    intro a b h
    rcases h with h | ⟨h, _⟩
    · exact h.le
    · exact h.ge
  · intro p hp
    have hp' : p ∈ (List.insertionSort candRel pool).map toSingletonPath := hp
    obtain ⟨c, _, rfl⟩ := List.mem_map.mp hp'
    exact ⟨completeness_toSingleton c, coherence_toSingleton c⟩

theorem build_single_step_witness :
    completeness (toSingletonPath ⟨"V", 1, 0, 1/2⟩) = 1 ∧
    coherence_bonus (toSingletonPath ⟨"V", 1, 0, 1/2⟩) = 1 :=
  (build_single_step_degenerate ⟨3/5, false⟩ [] [⟨"V", 1, 0, 1/2⟩]).2.2.2
    (toSingletonPath ⟨"V", 1, 0, 1/2⟩) (List.mem_singleton.mpr rfl)

/-- C5: the list of paths returned by `build_sequential_paths` is sorted
by descending path score, ties broken by descending completeness and
then by ascending video id. -/
theorem build_sequential_paths_sorted (cfg : SeqConfig)
    (gaps : List (Option GapConstraint)) (pools : List (List SeqCand)) :
    List.Sorted pathRel (build_sequential_paths cfg gaps pools) := by
  match pools with
  | [pool] =>
    show List.Sorted pathRel ((List.insertionSort candRel pool).map toSingletonPath)
    exact (List.sorted_insertionSort candRel pool).map toSingletonPath
      (fun _ _ h => candRel_toSingleton h)
  | [] =>
    exact List.sorted_insertionSort pathRel _
  | p :: q :: rest =>
    exact List.sorted_insertionSort pathRel _

/-! ### Sequential-query cache key (doc excerpts in
`docs/SYSTEM_EVALUATION_REPORT.md` and `docs/QUICK_ACTION_PLAN.md`) -/

/-- Modelled from the doc excerpt: a `/SequentialQuery` request — the
query texts plus the strictness flag and optional time-gap
constraints. -/
structure SequentialQueryRequest where
  queries : List String
  require_all_steps : Bool
  time_gap_constraints : List GapConstraint
deriving DecidableEq

/-- Modelled from the doc excerpt: the cache key is the MD5 digest of
the pipe-joined query texts alone
(`hashlib.md5("|".join(queries).encode()).hexdigest()`).  Since equal
pre-hash inputs yield equal digests and only key equality matters for
cache hits, the digest function is elided and the key is modelled as the
joined string itself. -/
def cache_key (r : SequentialQueryRequest) : String :=
  String.intercalate "|" r.queries

/-- C9: the cache key depends on the query texts only — two requests
with identical query lists but different `require_all_steps` flags or
different time-gap constraints get equal cache keys, so the second is
answered from the first one's cached result. -/
theorem cache_key_ignores_flags (r₁ r₂ : SequentialQueryRequest)
    (h : r₁.queries = r₂.queries) : cache_key r₁ = cache_key r₂ := by
  simp [cache_key, h]

theorem cache_key_ignores_flags_witness :
    cache_key ⟨["a", "b"], true, []⟩ = cache_key ⟨["a", "b"], false, [⟨0, 5⟩]⟩ :=
  cache_key_ignores_flags ⟨["a", "b"], true, []⟩ ⟨["a", "b"], false, [⟨0, 5⟩]⟩ rfl

/-! ### Frontend temporal-query state (`frontend/vite.config.js`) -/

/-- Trim whitespace from both ends of a character list, as JS
`String.prototype.trim`. -/
def trimCL (s : List Char) : List Char :=
  ((s.dropWhile Char.isWhitespace).reverse.dropWhile Char.isWhitespace).reverse

/-- JS truthiness of `q.trim()`: true iff the trimmed string is
non-empty. -/
def nonEmptyTrim (s : String) : Bool := !(trimCL s.data).isEmpty

/-- The user interactions that mutate `temporalQueries`:
`addTemporalQuery`, `removeTemporalQuery`, the `v-model` binding of one
input, and `applyHistoryItem` in temporal mode. -/
inductive UiEvent where
  | addQuery : UiEvent
  | removeQuery : Nat → UiEvent
  | editQuery : Nat → String → UiEvent
  | applyHistory : String → UiEvent

/-- One mutation of the `temporalQueries` array, from
`frontend/vite.config.js`: `addTemporalQuery` pushes an empty slot;
`removeTemporalQuery` splices one slot out only when more than 2 exist;
the `v-model` binding overwrites one slot; `applyHistoryItem` overwrites
slot 0 (or pushes when the array is empty). -/
def uiStep (qs : List String) : UiEvent → List String
  | .addQuery => qs ++ [""]
  | .removeQuery i => if 2 < qs.length then qs.eraseIdx i else qs
  | .editQuery i s => qs.set i s
  | .applyHistory s => if 0 < qs.length then qs.set 0 s else qs ++ [s]

/-- Initial frontend state: `temporalQueries = ref(['', ''])`. -/
def initialTemporalQueries : List String := ["", ""]

/-- The `temporalQueries` state reached after a sequence of user
interactions. -/
def runUi (evs : List UiEvent) : List String :=
  evs.foldl uiStep initialTemporalQueries

/-- `canSearch` in temporal mode: at least 2 queries with content after
trimming. -/
def canSearchTemporal (qs : List String) : Bool :=
  decide (2 ≤ (qs.filter nonEmptyTrim).length)

/-- The query list a `handleSearch` invocation in temporal mode puts in
the `/SequentialQuery` request body: the trimmed-non-empty queries. -/
def handleSearchQueries (qs : List String) : List String :=
  qs.filter nonEmptyTrim

theorem uiStep_min_slots (qs : List String) (e : UiEvent)
    (h : 2 ≤ qs.length) : 2 ≤ (uiStep qs e).length := by
  cases e with
  | addQuery => simp [uiStep]; omega
  | removeQuery i =>
    simp only [uiStep]
    split
    · rw [List.length_eraseIdx]
      split <;> omega
    · exact h
  | editQuery i s => simpa [uiStep] using h
  | applyHistory s =>
    simp only [uiStep]
    split
    · simpa using h
    · simp; omega

theorem runUi_go_min_slots (evs : List UiEvent) :
    ∀ qs : List String, 2 ≤ qs.length → 2 ≤ (evs.foldl uiStep qs).length := by
  induction evs with
  | nil => intro qs h; simpa using h
  | cons e evs ih =>
    intro qs h
    exact ih (uiStep qs e) (uiStep_min_slots qs e h)

/-- C10 (amended): the frontend always keeps at least 2 temporal query
slots, `canSearch` in temporal mode holds exactly when at least 2
queries are non-empty after trimming, and whenever `canSearch` holds a
`handleSearch` invocation puts at least two non-empty query strings in
the request.  (The guard is the search button's `disabled` binding; the
Enter-key binding can invoke `handleSearch` without it, see the
counterexample.) -/
theorem temporal_state_invariants :
    (∀ evs : List UiEvent, 2 ≤ (runUi evs).length) ∧
    (∀ qs : List String,
        canSearchTemporal qs = true ↔ 2 ≤ (qs.filter nonEmptyTrim).length) ∧
    (∀ qs : List String, canSearchTemporal qs = true →
        2 ≤ (handleSearchQueries qs).length ∧
        ∀ s ∈ handleSearchQueries qs, nonEmptyTrim s = true) := by
  refine ⟨?_, ?_, ?_⟩
  · intro evs
    exact runUi_go_min_slots evs initialTemporalQueries (by simp [initialTemporalQueries])
  · intro qs
    simp [canSearchTemporal]
  · intro qs h
    simp only [canSearchTemporal, decide_eq_true_eq] at h
    refine ⟨h, ?_⟩
    intro s hs
    exact (List.mem_filter.mp hs).2

theorem temporal_state_invariants_witness :
    2 ≤ (handleSearchQueries ["ab", "cd"]).length :=
  (temporal_state_invariants.2.2 ["ab", "cd"] (by decide)).1

/-- C10 (counterexample): the claim that every `handleSearch` invocation
carries at least two non-empty queries fails — after the single
interaction of typing "hello" into slot 0, the state is reachable, the
Enter-key binding can invoke `handleSearch`, and the request body holds
only one query. -/
theorem temporal_request_counterexample :
    ¬ 2 ≤ (handleSearchQueries (runUi [UiEvent.editQuery 0 "hello"])).length := by
  decide

end RetrievalSpec
